import Mathlib

/-!
Shallow embedding of `src/hippylib/algorithms/cpp_multivector/multivector.cpp`
(class `dolfin::MultiVector`).

A `MultiVector` owns an ordered sequence `mv` of vectors; every batched
operation of the class iterates over `mv` and delegates the per-vector work
to the underlying vector capability (`copy`, `zero`, `axpy`, `inner`,
`operator*=`, `norm`).

Modelling choices:
- a vector (`dolfin::GenericVector`) is its list of entries over an exact
  commutative ring of scalars `R` (idealised model of `double` arithmetic);
- the capability operations `zero`, `axpy`, `operator*=` are translated
  entrywise; `inner` and `norm` are kept as parameters (`ip`, `nrm`) where a
  claim is about the iteration structure rather than about a concrete inner
  product, and `inner` below is the concrete euclidean instance;
- caller-supplied output buffers (`dolfin::Array<double>`) are lists, and the
  pointer walks / indexed assignments the C++ performs on them are applied in
  program order (`writeSeq` for `*(data++) = v` walks, `applyWrites` for the
  `m[k] = v` assignments of `dot_self`);
- the `assert` statements of the per-slice `axpy` are modelled with `Except`:
  a failed assert aborts before any mutation;
- `other.mv.begin() == mv.begin()` (storage identity, line 82) is modelled by
  the `sameStorage` flag of `dotMV`;
- the norm selector (`std::string norm_type`) is an opaque type `S`.
-/

set_option linter.unusedSectionVars false

set_option linter.unusedVariables false

namespace MultiVec

/-- Entry list of one `dolfin::GenericVector` over the scalar ring `R`. -/
abbrev Vec (R : Type) := List R

variable {R : Type} [CommRing R]

/-- `GenericVector::inner`: euclidean inner product (concrete instance of the
vector capability used by `dot`/`dot_self`). -/
def inner (x y : Vec R) : R := (List.zipWith (fun a b => a * b) x y).sum

/-- `GenericVector::zero`: set every entry to the additive identity. -/
def zeroV (v : Vec R) : Vec R := v.map (fun _ => 0)

/-- `GenericVector::axpy(a, x)`: `v += a*x`, entrywise over the common layout. -/
def axpyV (v : Vec R) (a : R) (x : Vec R) : Vec R :=
  List.zipWith (fun vi xi => vi + a * xi) v x

/-- `GenericVector::operator*=(a)`: scale every entry. -/
def smulV (v : Vec R) (a : R) : Vec R := v.map (fun vi => vi * a)

/-- `MultiVector::nvec()`: `mv.size()`. -/
def nvec (mv : List (Vec R)) : ℕ := mv.length

/-- `MultiVector::MultiVector(const GenericVector& v, int nvec)` (lines 32-40):
every slot is a copy of the template `v`, then zeroed. -/
def mkMultiVector (v : Vec R) (n : ℕ) : List (Vec R) :=
  List.replicate n (zeroV v)

/-- `MultiVector::setSizeFromVector` (lines 50-58): discards the old contents,
reallocates to `n` zeroed copies of `v`. -/
def setSizeFromVector (_mv : List (Vec R)) (v : Vec R) (n : ℕ) : List (Vec R) :=
  List.replicate n (zeroV v)

/-- Pointer walk `*(data++) = v` over a caller buffer, starting at `start`:
each produced value is assigned to the next buffer position in order. -/
def writeSeq (m : List R) (start : ℕ) : List R → List R
  | [] => m
  | v :: vs => writeSeq (m.set start v) (start + 1) vs

/-- A trace of indexed assignments `m[k] = val`, applied in program order. -/
def applyWrites (m : List R) : List (ℕ × R) → List R
  | [] => m
  | w :: ws => applyWrites (m.set w.1 w.2) ws

/-- `MultiVector::dot(const GenericVector& v, Array<double>& m)` (lines 73-78):
`*(im++) = vj->inner(v)` for each contained vector in order. -/
def dotGV (ip : Vec R → Vec R → R) (mv : List (Vec R)) (v : Vec R) (m : List R) :
    List R :=
  writeSeq m 0 (mv.map (fun vj => ip vj v))

/-- The general branch of `MultiVector::dot(const MultiVector&, Array<double>&)`
(lines 85-90): `*(data++) = vi->inner(*vj)` in nested loop order, `vi` over
`mv` outer, `vj` over `other.mv` inner. -/
def dotMVGeneral (ip : Vec R → Vec R → R) (mv other : List (Vec R)) (m : List R) :
    List R :=
  writeSeq m 0 (mv.flatMap (fun vi => other.map (fun vj => ip vi vj)))

/-- The indexed assignments of `MultiVector::dot_self` (lines 93-103) in program
order: for each `i`, first `m[i + s*i] = inner(mv[i], mv[i])`, then for each
`j < i` the chained assignment `m[i + s*j] = m[j + s*i] = inner(mv[i], mv[j])`
(right-to-left, so `m[j + s*i]` first), both positions receiving the one
evaluated value. -/
def dotSelfWrites (ip : Vec R → Vec R → R) (mv : List (Vec R)) : List (ℕ × R) :=
  (List.range mv.length).flatMap (fun i =>
    (i + mv.length * i, ip (mv.getD i []) (mv.getD i [])) ::
      (List.range i).flatMap (fun j =>
        [(j + mv.length * i, ip (mv.getD i []) (mv.getD j [])),
         (i + mv.length * j, ip (mv.getD i []) (mv.getD j []))]))

/-- `MultiVector::dot_self(Array<double>& m)` (lines 93-103). -/
def dot_self (ip : Vec R → Vec R → R) (mv : List (Vec R)) (m : List R) : List R :=
  applyWrites m (dotSelfWrites ip mv)

/-- `MultiVector::dot(const MultiVector& other, Array<double>& m)` (lines
80-91): `sameStorage` models the iterator identity test
`other.mv.begin() == mv.begin()` of line 82. -/
def dotMV (ip : Vec R → Vec R → R) (sameStorage : Bool) (mv other : List (Vec R))
    (m : List R) : List R :=
  if sameStorage then dot_self ip mv m else dotMVGeneral ip mv other m

/-- `MultiVector::reduce(GenericVector& v, const Array<double>& alpha)` (lines
105-110): `v.axpy(*(data++), *vi)` for each contained vector in order. -/
def reduce (mv : List (Vec R)) (v : Vec R) (alpha : List R) : Vec R :=
  match mv, alpha with
  | vi :: rest, a :: rest' => reduce rest (axpyV v a vi) rest'
  | _, _ => v

/-- `MultiVector::axpy(double a, const GenericVector& y)` (lines 112-116):
broadcast, `vi->axpy(a, y)` for every slot. -/
def axpyB (mv : List (Vec R)) (a : R) (y : Vec R) : List (Vec R) :=
  mv.map (fun vi => axpyV vi a y)

/-- Outcome of a failed `assert` in the per-slice `axpy` (lines 121-122). -/
inductive AssertViolation : Type
  | aSizeNeN : AssertViolation
  | yNvecNeN : AssertViolation

/-- `MultiVector::axpy(const Array<double>& a, const MultiVector& y)` (lines
118-126): `assert(a.size() == n)`, `assert(y.nvec() == n)`, then
`mv[i]->axpy(a[i], *(y.mv[i]))` for each `i`. -/
def axpyArr (mv : List (Vec R)) (a : List R) (y : List (Vec R)) :
    Except AssertViolation (List (Vec R)) :=
  if a.length = mv.length then
    if y.length = mv.length then
      Except.ok ((List.range mv.length).map (fun i =>
        axpyV (mv.getD i []) (a.getD i 0) (y.getD i [])))
    else Except.error AssertViolation.yNvecNeN
  else Except.error AssertViolation.aSizeNeN

/-- `MultiVector::scale(int k, double a)` (lines 128-131). -/
def scaleK (mv : List (Vec R)) (k : ℕ) (a : R) : List (Vec R) :=
  mv.set k (smulV (mv.getD k []) a)

/-- `MultiVector::scale(const Array<double>& a)` (lines 133-138):
`vj->operator*=(*(data++))` for each slot, no size check in the source. -/
def scaleArr (mv : List (Vec R)) (a : List R) : List (Vec R) :=
  (List.range mv.length).map (fun i => smulV (mv.getD i []) (a.getD i 0))

/-- `MultiVector::zero()` (lines 140-144). -/
def zero (mv : List (Vec R)) : List (Vec R) := mv.map zeroV

/-- `MultiVector::norm_all(norm_type, norms)` (lines 146-151): the norm is
delegated to the vector capability `nrm`, the selector type `S` is opaque
(a string in the source). -/
def norm_all {S : Type} (nrm : S → Vec R → R) (t : S) (mv : List (Vec R))
    (m : List R) : List R :=
  writeSeq m 0 (mv.map (fun vi => nrm t vi))

/-- `MultiVector::swap(MultiVector& other)` (lines 153-156): `mv.swap(other.mv)`
exchanges the two sequences. -/
def swap (mv other : List (Vec R)) : List (Vec R) × List (Vec R) :=
  (other, mv)

/-- One-hot coefficient array `e_k` of length `n`. -/
def oneHot (n k : ℕ) : List R :=
  (List.range n).map (fun i => if i = k then 1 else 0)

/- ### Generic buffer lemmas -/

theorem writeSeq_length (vs : List R) :
    ∀ (m : List R) (start : ℕ), (writeSeq m start vs).length = m.length := by
  induction vs with
  | nil => intro m start; rfl
  | cons v vs ih =>
      intro m start
      rw [writeSeq, ih, List.length_set]

theorem writeSeq_getD_of_lt (vs : List R) :
    ∀ (m : List R) (start k : ℕ), k < start →
      (writeSeq m start vs).getD k 0 = m.getD k 0 := by
  induction vs with
  | nil => intro m start k _; rfl
  | cons v vs ih =>
      intro m start k h
      rw [writeSeq, ih _ _ _ (Nat.lt_succ_of_lt h)]
      have hne : start ≠ k := by omega
      simp [List.getD_eq_getElem?_getD, List.getElem?_set_ne hne]

theorem writeSeq_getD_of_ge (vs : List R) :
    ∀ (m : List R) (start k : ℕ), start + vs.length ≤ k →
      (writeSeq m start vs).getD k 0 = m.getD k 0 := by
  induction vs with
  | nil => intro m start k _; rfl
  | cons v vs ih =>
      intro m start k h
      rw [List.length_cons] at h
      rw [writeSeq, ih _ _ _ (by omega)]
      have hne : start ≠ k := by omega
      simp [List.getD_eq_getElem?_getD, List.getElem?_set_ne hne]

theorem writeSeq_getD_get (vs : List R) :
    ∀ (m : List R) (start j : ℕ), j < vs.length → start + vs.length ≤ m.length →
      (writeSeq m start vs).getD (start + j) 0 = vs.getD j 0 := by
  induction vs with
  | nil => intro m start j hj _; exact absurd hj (Nat.not_lt_zero j)
  | cons v vs ih =>
      intro m start j hj hm
      rw [List.length_cons] at hm
      cases j with
      | zero =>
          rw [writeSeq, writeSeq_getD_of_lt vs _ _ _ (by omega)]
          have hlt : start < m.length := by omega
          simp [List.getD_eq_getElem?_getD, List.getElem?_set_self hlt]
      | succ j' =>
          have harr : start + (j' + 1) = (start + 1) + j' := by omega
          rw [writeSeq, harr,
            ih _ _ _ (Nat.lt_of_succ_lt_succ hj) (by rw [List.length_set]; omega)]
          rfl

theorem applyWrites_length (ws : List (ℕ × R)) :
    ∀ (m : List R), (applyWrites m ws).length = m.length := by
  induction ws with
  | nil => intro m; rfl
  | cons w ws ih =>
      intro m
      rw [applyWrites, ih, List.length_set]

theorem applyWrites_getD_not_mem (ws : List (ℕ × R)) :
    ∀ (m : List R) (k : ℕ), (∀ w ∈ ws, w.1 ≠ k) →
      (applyWrites m ws).getD k 0 = m.getD k 0 := by
  induction ws with
  | nil => intro m k _; rfl
  | cons w ws ih =>
      intro m k h
      rw [applyWrites, ih _ _ (fun w' hw' => h w' (List.mem_cons_of_mem _ hw'))]
      have hne : w.1 ≠ k := h w (List.mem_cons_self w ws)
      simp [List.getD_eq_getElem?_getD, List.getElem?_set_ne hne]

theorem applyWrites_getD_unique (ws : List (ℕ × R)) :
    ∀ (m : List R) (k : ℕ) (v : R), k < m.length → (k, v) ∈ ws →
      (∀ w ∈ ws, w.1 = k → w.2 = v) →
      (applyWrites m ws).getD k 0 = v := by
  induction ws with
  | nil => intro m k v _ hmem _; cases hmem
  | cons w ws ih =>
      intro m k v hk hmem huniq
      rw [applyWrites]
      by_cases hrest : ∃ w' ∈ ws, w'.1 = k
      · obtain ⟨w', hw', hw'k⟩ := hrest
        have hw'v : w'.2 = v := huniq w' (List.mem_cons_of_mem _ hw') hw'k
        have hmem' : (k, v) ∈ ws := by
          have : w' = (k, v) := by
            cases w'
            simp_all
          rw [← this]; exact hw'
        exact ih _ _ _ (by rw [List.length_set]; exact hk) hmem'
          (fun w'' hw'' => huniq w'' (List.mem_cons_of_mem _ hw''))
      · have hwkv : w = (k, v) := by
          rcases List.mem_cons.mp hmem with h | h
          · exact h.symm
          · exact absurd ⟨(k, v), h, rfl⟩ hrest
        rw [applyWrites_getD_not_mem ws _ _ (fun w' hw' => by
          intro heq
          exact hrest ⟨w', hw', heq⟩)]
        rw [hwkv]
        simp [List.getD_eq_getElem?_getD, List.getElem?_set_self hk]

/-- Getting through `map` at an in-range position. -/
theorem getD_map_lt {α β : Type} (f : α → β) (l : List α) (dα : α) (dβ : β)
    {j : ℕ} (hj : j < l.length) :
    (l.map f).getD j dβ = f (l.getD j dα) := by
  rw [List.getD_eq_getElem _ _ (by simpa using hj), List.getElem_map,
    List.getD_eq_getElem _ _ hj]

/-- Getting an in-range position of `List.range`. -/
theorem range_getD {n i : ℕ} (hi : i < n) : (List.range n).getD i 0 = i := by
  rw [List.getD_eq_getElem _ _ (by simpa using hi), List.getElem_range]

/-- Injectivity of the flat index `(x, y) ↦ x + s*y` on `[0,s) × ℕ`. -/
theorem flat_inj {s x y x' y' : ℕ} (hx : x < s) (hx' : x' < s)
    (h : x + s * y = x' + s * y') : x = x' ∧ y = y' := by
  have h1 : (x + s * y) % s = x := by
    rw [mul_comm, Nat.add_mul_mod_self_right, Nat.mod_eq_of_lt hx]
  have h2 : (x' + s * y') % s = x' := by
    rw [mul_comm, Nat.add_mul_mod_self_right, Nat.mod_eq_of_lt hx']
  have hxx : x = x' := by rw [← h1, ← h2, h]
  refine ⟨hxx, ?_⟩
  have hs : 0 < s := by omega
  have hyy : s * y = s * y' := by omega
  exact Nat.eq_of_mul_eq_mul_left hs hyy

/-- Range of the flat index: `x + s*y < s*s` for `x, y < s`. -/
theorem flat_lt {s x y : ℕ} (hx : x < s) (hy : y < s) : x + s * y < s * s := by
  calc x + s * y < s + s * y := by omega
    _ = s * (y + 1) := by ring
    _ ≤ s * s := Nat.mul_le_mul (Nat.le_refl s) hy

/- ### Characterisation of the output-producing operations -/

/-- The euclidean inner product is symmetric entry by entry. -/
theorem inner_comm (x y : Vec R) : inner x y = inner y x := by
  unfold inner
  rw [List.zipWith_comm_of_comm _ mul_comm]

theorem dotGV_length (ip : Vec R → Vec R → R) (mv : List (Vec R)) (v : Vec R)
    (m : List R) : (dotGV ip mv v m).length = m.length :=
  writeSeq_length _ _ _

theorem dotGV_getD (ip : Vec R → Vec R → R) (mv : List (Vec R)) (v : Vec R)
    (m : List R) (hm : mv.length ≤ m.length) {i : ℕ} (hi : i < mv.length) :
    (dotGV ip mv v m).getD i 0 = ip (mv.getD i []) v := by
  unfold dotGV
  have h := writeSeq_getD_get (mv.map fun vj => ip vj v) m 0 i
    (by simpa using hi) (by simpa using hm)
  rw [Nat.zero_add] at h
  rw [h, getD_map_lt _ _ [] _ hi]

theorem dotGV_getD_frame (ip : Vec R → Vec R → R) (mv : List (Vec R)) (v : Vec R)
    (m : List R) {k : ℕ} (hk : mv.length ≤ k) :
    (dotGV ip mv v m).getD k 0 = m.getD k 0 :=
  writeSeq_getD_of_ge _ _ _ _ (by simpa using hk)

theorem norm_all_length {S : Type} (nrm : S → Vec R → R) (t : S)
    (mv : List (Vec R)) (m : List R) : (norm_all nrm t mv m).length = m.length :=
  writeSeq_length _ _ _

theorem norm_all_getD {S : Type} (nrm : S → Vec R → R) (t : S)
    (mv : List (Vec R)) (m : List R) (hm : mv.length ≤ m.length) {i : ℕ}
    (hi : i < mv.length) :
    (norm_all nrm t mv m).getD i 0 = nrm t (mv.getD i []) := by
  unfold norm_all
  have h := writeSeq_getD_get (mv.map fun vi => nrm t vi) m 0 i
    (by simpa using hi) (by simpa using hm)
  rw [Nat.zero_add] at h
  rw [h, getD_map_lt _ _ [] _ hi]

theorem norm_all_getD_frame {S : Type} (nrm : S → Vec R → R) (t : S)
    (mv : List (Vec R)) (m : List R) {k : ℕ} (hk : mv.length ≤ k) :
    (norm_all nrm t mv m).getD k 0 = m.getD k 0 :=
  writeSeq_getD_of_ge _ _ _ _ (by simpa using hk)

/-- Length of the value stream of the general `dot` branch. -/
theorem dotVals_length (ip : Vec R → Vec R → R) (mv other : List (Vec R)) :
    (mv.flatMap (fun vi => other.map (fun vj => ip vi vj))).length =
      mv.length * other.length := by
  induction mv with
  | nil => simp
  | cons v rest ih =>
      simp only [List.flatMap_cons, List.length_append, List.length_map, ih,
        List.length_cons]
      ring

/-- Entry `i * size2 + j` of the value stream of the general `dot` branch. -/
theorem dotVals_getD (ip : Vec R → Vec R → R) (mv other : List (Vec R)) :
    ∀ {i j : ℕ}, i < mv.length → j < other.length →
      (mv.flatMap (fun vi => other.map (fun vj => ip vi vj))).getD
          (i * other.length + j) 0 =
        ip (mv.getD i []) (other.getD j []) := by
  induction mv with
  | nil => intro i j hi _; exact absurd hi (Nat.not_lt_zero i)
  | cons v rest ih =>
      intro i j hi hj
      rw [List.flatMap_cons]
      cases i with
      | zero =>
          rw [Nat.zero_mul, Nat.zero_add,
            List.getD_append _ _ _ _ (by simpa using hj)]
          exact getD_map_lt _ _ [] _ hj
      | succ i' =>
          have harr : (i' + 1) * other.length + j =
              (other.map fun vj => ip v vj).length + (i' * other.length + j) := by
            simp only [List.length_map]
            ring
          rw [harr, List.getD_append_right _ _ _ _ (Nat.le_add_right _ _)]
          simp only [Nat.add_sub_cancel_left]
          exact ih (Nat.lt_of_succ_lt_succ hi) hj

theorem dotMVGeneral_length (ip : Vec R → Vec R → R) (mv other : List (Vec R))
    (m : List R) : (dotMVGeneral ip mv other m).length = m.length :=
  writeSeq_length _ _ _

theorem dotMVGeneral_getD (ip : Vec R → Vec R → R) (mv other : List (Vec R))
    (m : List R) (hm : mv.length * other.length ≤ m.length) {i j : ℕ}
    (hi : i < mv.length) (hj : j < other.length) :
    (dotMVGeneral ip mv other m).getD (i * other.length + j) 0 =
      ip (mv.getD i []) (other.getD j []) := by
  unfold dotMVGeneral
  have hidx : i * other.length + j < mv.length * other.length := by
    calc i * other.length + j < i * other.length + other.length := by omega
      _ = (i + 1) * other.length := by ring
      _ ≤ mv.length * other.length := Nat.mul_le_mul hi (Nat.le_refl _)
  have h := writeSeq_getD_get (mv.flatMap fun vi => other.map fun vj => ip vi vj)
    m 0 (i * other.length + j)
    (by rw [dotVals_length]; exact hidx)
    (by rw [dotVals_length]; simpa using hm)
  rw [Nat.zero_add] at h
  rw [h]
  exact dotVals_getD ip mv other hi hj

theorem dotMVGeneral_getD_frame (ip : Vec R → Vec R → R) (mv other : List (Vec R))
    (m : List R) {k : ℕ} (hk : mv.length * other.length ≤ k) :
    (dotMVGeneral ip mv other m).getD k 0 = m.getD k 0 := by
  unfold dotMVGeneral
  exact writeSeq_getD_of_ge _ _ _ _ (by rw [dotVals_length]; simpa using hk)

/-- The write `(a + s*b, inner(mv[max a b], mv[min a b]))` occurs in the
assignment trace of `dot_self`, for any `a, b < s`. -/
theorem dotSelfWrites_mem (ip : Vec R → Vec R → R) (mv : List (Vec R)) {a b : ℕ}
    (ha : a < mv.length) (hb : b < mv.length) :
    (a + mv.length * b, ip (mv.getD (max a b) []) (mv.getD (min a b) [])) ∈
      dotSelfWrites ip mv := by
  unfold dotSelfWrites
  rcases lt_trichotomy a b with hab | hab | hab
  · refine List.mem_flatMap.mpr ⟨b, List.mem_range.mpr hb, ?_⟩
    refine List.mem_cons_of_mem _ ?_
    refine List.mem_flatMap.mpr ⟨a, List.mem_range.mpr hab, ?_⟩
    rw [max_eq_right hab.le, min_eq_left hab.le]
    exact List.mem_cons_self _ _
  · subst hab
    refine List.mem_flatMap.mpr ⟨a, List.mem_range.mpr ha, ?_⟩
    rw [max_self, min_self]
    exact List.mem_cons_self _ _
  · refine List.mem_flatMap.mpr ⟨a, List.mem_range.mpr ha, ?_⟩
    refine List.mem_cons_of_mem _ ?_
    refine List.mem_flatMap.mpr ⟨b, List.mem_range.mpr hab, ?_⟩
    rw [max_eq_left hab.le, min_eq_right hab.le]
    exact List.mem_cons_of_mem _ (List.mem_cons_self _ _)

/-- Every write of `dot_self` aimed at flat position `a + s*b` (with
`a, b < s`) carries the value `inner(mv[max a b], mv[min a b])`. -/
theorem dotSelfWrites_uniq (ip : Vec R → Vec R → R) (mv : List (Vec R)) {a b : ℕ}
    (ha : a < mv.length) (hb : b < mv.length) :
    ∀ w ∈ dotSelfWrites ip mv, w.1 = a + mv.length * b →
      w.2 = ip (mv.getD (max a b) []) (mv.getD (min a b) []) := by
  intro w hw hk
  unfold dotSelfWrites at hw
  obtain ⟨i, hi, hwrow⟩ := List.mem_flatMap.mp hw
  rw [List.mem_range] at hi
  rcases List.mem_cons.mp hwrow with hdiag | hoff
  · rw [hdiag] at hk ⊢
    obtain ⟨hia, hib⟩ := flat_inj hi ha hk
    rw [← hia, ← hib, max_self, min_self]
  · obtain ⟨j, hj, hwel⟩ := List.mem_flatMap.mp hoff
    rw [List.mem_range] at hj
    rcases List.mem_cons.mp hwel with h1 | h1
    · rw [h1] at hk ⊢
      obtain ⟨hja, hib⟩ := flat_inj (Nat.lt_trans hj hi) ha hk
      have hab : a < b := by omega
      rw [max_eq_right hab.le, min_eq_left hab.le, ← hja, ← hib]
    · rcases List.mem_cons.mp h1 with h2 | h2
      · rw [h2] at hk ⊢
        obtain ⟨hia, hjb⟩ := flat_inj hi ha hk
        have hab : b < a := by omega
        rw [max_eq_left hab.le, min_eq_right hab.le, ← hia, ← hjb]
      · exact absurd h2 (List.not_mem_nil w)

/-- Every write of `dot_self` targets a flat position below `s*s`. -/
theorem dotSelfWrites_lt (ip : Vec R → Vec R → R) (mv : List (Vec R)) :
    ∀ w ∈ dotSelfWrites ip mv, w.1 < mv.length * mv.length := by
  intro w hw
  unfold dotSelfWrites at hw
  obtain ⟨i, hi, hwrow⟩ := List.mem_flatMap.mp hw
  rw [List.mem_range] at hi
  rcases List.mem_cons.mp hwrow with hdiag | hoff
  · rw [hdiag]
    exact flat_lt hi hi
  · obtain ⟨j, hj, hwel⟩ := List.mem_flatMap.mp hoff
    rw [List.mem_range] at hj
    rcases List.mem_cons.mp hwel with h1 | h1
    · rw [h1]
      exact flat_lt (Nat.lt_trans hj hi) hi
    · rcases List.mem_cons.mp h1 with h2 | h2
      · rw [h2]
        exact flat_lt hi (Nat.lt_trans hj hi)
      · exact absurd h2 (List.not_mem_nil w)

theorem dot_self_length (ip : Vec R → Vec R → R) (mv : List (Vec R)) (m : List R) :
    (dot_self ip mv m).length = m.length :=
  applyWrites_length _ _

/-- Final value of buffer position `a + s*b` after `dot_self`: the single
evaluation for the unordered pair `{a, b}`, made at iteration `i = max a b`. -/
theorem dot_self_getD (ip : Vec R → Vec R → R) (mv : List (Vec R)) (m : List R)
    (hm : mv.length * mv.length ≤ m.length) {a b : ℕ} (ha : a < mv.length)
    (hb : b < mv.length) :
    (dot_self ip mv m).getD (a + mv.length * b) 0 =
      ip (mv.getD (max a b) []) (mv.getD (min a b) []) := by
  unfold dot_self
  exact applyWrites_getD_unique _ _ _ _
    (Nat.lt_of_lt_of_le (flat_lt ha hb) hm)
    (dotSelfWrites_mem ip mv ha hb)
    (dotSelfWrites_uniq ip mv ha hb)

theorem dot_self_getD_frame (ip : Vec R → Vec R → R) (mv : List (Vec R))
    (m : List R) {k : ℕ} (hk : mv.length * mv.length ≤ k) :
    (dot_self ip mv m).getD k 0 = m.getD k 0 := by
  unfold dot_self
  exact applyWrites_getD_not_mem _ _ _
    (fun w hw => Nat.ne_of_lt (Nat.lt_of_lt_of_le (dotSelfWrites_lt ip mv w hw) hk))

/- ### Characterisation of `axpy`, `reduce` and the one-hot coefficients -/

theorem axpyV_length (v : Vec R) (a : R) (x : Vec R) (hx : x.length = v.length) :
    (axpyV v a x).length = v.length := by
  simp [axpyV, hx]

theorem axpyV_getD (v : Vec R) (a : R) (x : Vec R) (hx : x.length = v.length)
    {k : ℕ} (hk : k < v.length) :
    (axpyV v a x).getD k 0 = v.getD k 0 + a * x.getD k 0 := by
  unfold axpyV
  rw [List.getD_eq_getElem _ _ (by simp [List.length_zipWith, hx]; omega),
    List.getElem_zipWith, List.getD_eq_getElem _ _ hk,
    List.getD_eq_getElem _ _ (by omega)]

theorem reduce_length (mv : List (Vec R)) :
    ∀ (v : Vec R) (alpha : List R), (∀ w ∈ mv, w.length = v.length) →
      (reduce mv v alpha).length = v.length := by
  induction mv with
  | nil => intro v alpha _; cases alpha <;> rfl
  | cons vi rest ih =>
      intro v alpha hdim
      cases alpha with
      | nil => rfl
      | cons a rest' =>
          have hvi : vi.length = v.length := hdim vi (List.mem_cons_self _ _)
          have hax : (axpyV v a vi).length = v.length := axpyV_length v a vi hvi
          rw [reduce, ih _ rest'
            (fun w hw => by rw [hax]; exact hdim w (List.mem_cons_of_mem _ hw)),
            hax]

theorem reduce_getD (mv : List (Vec R)) :
    ∀ (v : Vec R) (alpha : List R), alpha.length = mv.length →
      (∀ w ∈ mv, w.length = v.length) → ∀ k, k < v.length →
      (reduce mv v alpha).getD k 0 =
        v.getD k 0 + ∑ i ∈ Finset.range mv.length,
          alpha.getD i 0 * (mv.getD i []).getD k 0 := by
  induction mv with
  | nil =>
      intro v alpha _ _ k _
      cases alpha <;> simp [reduce]
  | cons vi rest ih =>
      intro v alpha hlen hdim k hk
      cases alpha with
      | nil => exact absurd hlen (by simp)
      | cons a rest' =>
          have hvi : vi.length = v.length := hdim vi (List.mem_cons_self _ _)
          have hax : (axpyV v a vi).length = v.length := axpyV_length v a vi hvi
          rw [reduce,
            ih (axpyV v a vi) rest' (by simpa using hlen)
              (fun w hw => by rw [hax]; exact hdim w (List.mem_cons_of_mem _ hw))
              k (by rw [hax]; exact hk),
            axpyV_getD v a vi hvi hk, List.length_cons, Finset.sum_range_succ']
          simp only [List.getD_cons_succ, List.getD_cons_zero]
          ring

theorem oneHot_getD {n k i : ℕ} (hi : i < n) :
    (oneHot n k : List R).getD i 0 = if i = k then 1 else 0 := by
  unfold oneHot
  rw [getD_map_lt (fun i => if i = k then (1 : R) else 0) (List.range n) 0 0
      (by simpa using hi),
    List.getD_eq_getElem _ _ (by simpa using hi), List.getElem_range]

theorem oneHot_sum (n k : ℕ) (hk : k < n) (g : ℕ → R) :
    ∑ i ∈ Finset.range n, (oneHot n k : List R).getD i 0 * g i = g k := by
  rw [Finset.sum_congr rfl
    (fun i hi => by rw [oneHot_getD (Finset.mem_range.mp hi)])]
  simp only [ite_mul, one_mul, zero_mul]
  rw [Finset.sum_ite_eq' (Finset.range n) k g]
  simp [hk]

/- ### The claims -/

/-- Claim C1: for every MultiVector `mv` with `N = nvec mv` contained vectors
and a buffer of capacity at least `N*N`, `dot_self` fills the buffer as an
exactly symmetric `N×N` Gram matrix: `out[i+N*j] = out[j+N*i]` for all
`i, j < N`, and the diagonal entry `out[i+N*i]` equals the inner product of
`mv[i]` with itself. The inner-product capability `ip` is an arbitrary
function here — not assumed symmetric — so the mirrored equality cannot come
from symmetry of the inner product: it holds because the code evaluates the
inner product once per unordered pair and assigns that one value to both
mirrored positions. -/
theorem C1_dot_self_symm_diag (ip : Vec R → Vec R → R) (mv : List (Vec R))
    (m : List R) (hm : nvec mv * nvec mv ≤ m.length) {i j : ℕ}
    (hi : i < nvec mv) (hj : j < nvec mv) :
    (dot_self ip mv m).getD (i + nvec mv * j) 0 =
        (dot_self ip mv m).getD (j + nvec mv * i) 0 ∧
      (dot_self ip mv m).getD (i + nvec mv * i) 0 =
        ip (mv.getD i []) (mv.getD i []) := by
  simp only [nvec] at *
  constructor
  · rw [dot_self_getD ip mv m hm hi hj, dot_self_getD ip mv m hm hj hi,
      max_comm, min_comm]
  · rw [dot_self_getD ip mv m hm hi hi, max_self, min_self]

/-- Concrete instance of C1 over ℤ: two vectors, a 4-slot buffer. -/
theorem C1_witness :
    (nvec [[(1 : ℤ)], [2]] * nvec [[(1 : ℤ)], [2]] ≤
        ([0, 0, 0, 0] : List ℤ).length ∧
      0 < nvec [[(1 : ℤ)], [2]] ∧ 1 < nvec [[(1 : ℤ)], [2]]) ∧
    ((dot_self inner [[(1 : ℤ)], [2]] [0, 0, 0, 0]).getD
          (0 + nvec [[(1 : ℤ)], [2]] * 1) 0 =
        (dot_self inner [[(1 : ℤ)], [2]] [0, 0, 0, 0]).getD
          (1 + nvec [[(1 : ℤ)], [2]] * 0) 0 ∧
      (dot_self inner [[(1 : ℤ)], [2]] [0, 0, 0, 0]).getD
          (0 + nvec [[(1 : ℤ)], [2]] * 0) 0 =
        inner ([[(1 : ℤ)], [2]].getD 0 []) ([[(1 : ℤ)], [2]].getD 0 [])) :=
  ⟨⟨by decide, by decide, by decide⟩,
    C1_dot_self_symm_diag inner [[(1 : ℤ)], [2]] [0, 0, 0, 0] (by decide)
      (by decide) (by decide)⟩

/-- Claim C2: when `dot(other, out)` is called with `other` referring to the
same underlying storage as `self` (the iterator identity check of line 82,
modelled by `sameStorage = true` with the same `mv` on both sides), the call
computes the result via `dot_self`, and this fast-path result coincides with
what the general double-loop path would produce on the same storage. -/
theorem C2_dot_fastpath (mv : List (Vec R)) (m : List R)
    (hm : nvec mv * nvec mv ≤ m.length) :
    dotMV inner true mv mv m = dot_self inner mv m ∧
    dotMV inner true mv mv m = dotMVGeneral inner mv mv m := by
  simp only [nvec] at hm
  have h1 : dotMV inner true mv mv m = dot_self inner mv m := rfl
  refine ⟨h1, ?_⟩
  rw [h1]
  apply List.ext_getElem
  · rw [dot_self_length, dotMVGeneral_length]
  · intro k hk1 hk2
    rw [dot_self_length] at hk1
    rw [← List.getD_eq_getElem _ 0 (by rw [dot_self_length]; exact hk1),
      ← List.getD_eq_getElem _ 0 (by rw [dotMVGeneral_length]; exact hk1)]
    by_cases hk : k < mv.length * mv.length
    · have hs : 0 < mv.length := by
        rcases Nat.eq_zero_or_pos mv.length with h0 | h0
        · rw [h0] at hk; omega
        · exact h0
      have ha : k % mv.length < mv.length := Nat.mod_lt k hs
      have hb : k / mv.length < mv.length := by
        rw [Nat.div_lt_iff_lt_mul hs]
        exact hk
      have e1 : (dot_self inner mv m).getD k 0 =
          inner (mv.getD (max (k % mv.length) (k / mv.length)) [])
            (mv.getD (min (k % mv.length) (k / mv.length)) []) := by
        have h := dot_self_getD inner mv m hm ha hb
        rw [Nat.mod_add_div k mv.length] at h
        exact h
      have e2 : (dotMVGeneral inner mv mv m).getD k 0 =
          inner (mv.getD (k / mv.length) []) (mv.getD (k % mv.length) []) := by
        have h := dotMVGeneral_getD inner mv mv m hm hb ha
        have hidx : k / mv.length * mv.length + k % mv.length = k := by
          rw [Nat.mul_comm]
          exact Nat.div_add_mod k mv.length
        rw [hidx] at h
        exact h
      rw [e1, e2]
      rcases le_total (k % mv.length) (k / mv.length) with h | h
      · rw [max_eq_right h, min_eq_left h]
      · rw [max_eq_left h, min_eq_right h]
        exact inner_comm _ _
    · push_neg at hk
      rw [dot_self_getD_frame inner mv m hk,
        dotMVGeneral_getD_frame inner mv mv m hk]

/-- Concrete instance of C2 over ℤ: two vectors, a 4-slot buffer. -/
theorem C2_witness :
    (nvec [[(1 : ℤ)], [2]] * nvec [[(1 : ℤ)], [2]] ≤
        ([0, 0, 0, 0] : List ℤ).length) ∧
    dotMV inner true [[(1 : ℤ)], [2]] [[(1 : ℤ)], [2]] [0, 0, 0, 0] =
        dot_self inner [[(1 : ℤ)], [2]] [0, 0, 0, 0] ∧
    dotMV inner true [[(1 : ℤ)], [2]] [[(1 : ℤ)], [2]] [0, 0, 0, 0] =
        dotMVGeneral inner [[(1 : ℤ)], [2]] [[(1 : ℤ)], [2]] [0, 0, 0, 0] :=
  ⟨by decide,
    (C2_dot_fastpath [[(1 : ℤ)], [2]] [0, 0, 0, 0] (by decide)).1,
    (C2_dot_fastpath [[(1 : ℤ)], [2]] [0, 0, 0, 0] (by decide)).2⟩

/-- Claim C3: `dot(other, out)` on distinct storage (`sameStorage = false`,
the general branch) fills the buffer as a row-major-by-self-index matrix:
`out[i*size2 + j] = <self[i], other[j]>` for every `i < size1`, `j < size2`,
written as a flat sequential fill in nested loop order. -/
theorem C3_dot_general (ip : Vec R → Vec R → R) (mv other : List (Vec R))
    (m : List R) (hm : nvec mv * nvec other ≤ m.length) {i j : ℕ}
    (hi : i < nvec mv) (hj : j < nvec other) :
    (dotMV ip false mv other m).getD (i * nvec other + j) 0 =
      ip (mv.getD i []) (other.getD j []) := by
  simp only [nvec] at *
  have h : dotMV ip false mv other m = dotMVGeneral ip mv other m := rfl
  rw [h]
  exact dotMVGeneral_getD ip mv other m hm hi hj

/-- Concrete instance of C3 over ℤ: a 2×1 output block. -/
theorem C3_witness :
    (nvec [[(1 : ℤ), 2], [3, 4]] * nvec [[(5 : ℤ), 6]] ≤
        ([0, 0] : List ℤ).length ∧
      1 < nvec [[(1 : ℤ), 2], [3, 4]] ∧ 0 < nvec [[(5 : ℤ), 6]]) ∧
    (dotMV inner false [[(1 : ℤ), 2], [3, 4]] [[(5 : ℤ), 6]] [0, 0]).getD
        (1 * nvec [[(5 : ℤ), 6]] + 0) 0 =
      inner ([[(1 : ℤ), 2], [3, 4]].getD 1 []) ([[(5 : ℤ), 6]].getD 0 []) :=
  ⟨⟨by decide, by decide, by decide⟩,
    C3_dot_general inner [[(1 : ℤ), 2], [3, 4]] [[(5 : ℤ), 6]] [0, 0]
      (by decide) (by decide) (by decide)⟩

/-- Claim C4: `reduce(v, alpha)` with `alpha` of length `N` leaves `v` equal
to its old value plus `Σ_i alpha[i] * mv[i]`, accumulated by repeated axpy in
index order; stated entrywise over the common layout, together with layout
preservation. With `alpha` the one-hot vector `e_kk`, the result is
`v + mv[kk]`. The embedding is functional, so `reduce` produces only the new
value of `v` and the contained vectors are untouched by construction. -/
theorem C4_reduce (mv : List (Vec R)) (v : Vec R) (alpha : List R)
    (hlen : alpha.length = nvec mv) (hdim : ∀ w ∈ mv, w.length = v.length) :
    (reduce mv v alpha).length = v.length ∧
    (∀ k, k < v.length → (reduce mv v alpha).getD k 0 =
      v.getD k 0 + ∑ i ∈ Finset.range (nvec mv),
        alpha.getD i 0 * (mv.getD i []).getD k 0) ∧
    (∀ kk, kk < nvec mv → alpha = oneHot (nvec mv) kk →
      ∀ k, k < v.length → (reduce mv v alpha).getD k 0 =
        v.getD k 0 + (mv.getD kk []).getD k 0) := by
  simp only [nvec] at *
  refine ⟨reduce_length mv v alpha hdim,
    fun k hk => reduce_getD mv v alpha hlen hdim k hk, ?_⟩
  intro kk hkk halpha k hk
  rw [reduce_getD mv v alpha hlen hdim k hk, halpha,
    oneHot_sum mv.length kk hkk (fun i => (mv.getD i []).getD k 0)]

/-- Concrete instance of C4 over ℤ with the one-hot coefficients `e_1`. -/
theorem C4_witness :
    ((oneHot 2 1 : List ℤ).length = nvec [[(10 : ℤ)], [20]] ∧
      (∀ w ∈ [[(10 : ℤ)], [20]], w.length = [(5 : ℤ)].length) ∧
      1 < nvec [[(10 : ℤ)], [20]] ∧
      (oneHot 2 1 : List ℤ) = oneHot (nvec [[(10 : ℤ)], [20]]) 1 ∧
      0 < [(5 : ℤ)].length) ∧
    (reduce [[(10 : ℤ)], [20]] [(5 : ℤ)] (oneHot 2 1)).getD 0 0 =
      [(5 : ℤ)].getD 0 0 + ([[(10 : ℤ)], [20]].getD 1 []).getD 0 0 :=
  ⟨⟨by decide, by decide, by decide, by decide, by decide⟩,
    (C4_reduce [[(10 : ℤ)], [20]] [(5 : ℤ)] (oneHot 2 1) (by decide)
      (by decide)).2.2 1 (by decide) (by decide) 0 (by decide)⟩

/-- Claim C5 counterexample: the claim says a per-slice `scale` call whose
coefficient array length differs from `N` raises SizeMismatch and mutates no
contained vector. The source (lines 133-138) has no size check: with
`a = [2, 3]` of length 2 against `N = 1`, the call returns normally and the
single contained vector `[1]` has been scaled to `[2]`. -/
theorem C5_cex :
    scaleArr [[(1 : ℤ)]] [2, 3] = [[(2 : ℤ)]] ∧
      scaleArr [[(1 : ℤ)]] [2, 3] ≠ [[(1 : ℤ)]] := by
  constructor
  · decide
  · decide

/-- Claim C5 amended: per-slice `scale` performs no size validation; the call
always proceeds, consuming the first `N` coefficients of `a` in order:
`self[i] *= a[i]` for every `i < N` whenever `a` supplies at least `N`
coefficients (extra coefficients are ignored; an `a` shorter than `N` is an
out-of-bounds pointer walk in the source, outside the model). `nvec` is
preserved. -/
theorem C5_scaleArr_no_check (mv : List (Vec R)) (a : List R)
    (hlen : nvec mv ≤ a.length) :
    nvec (scaleArr mv a) = nvec mv ∧
    ∀ i, i < nvec mv →
      (scaleArr mv a).getD i [] = smulV (mv.getD i []) (a.getD i 0) := by
  simp only [nvec] at *
  constructor
  · simp [scaleArr]
  · intro i hi
    unfold scaleArr
    rw [getD_map_lt _ _ 0 _ (by simpa using hi), range_getD hi]

/-- Concrete instance of the amended C5 over ℤ. -/
theorem C5_witness :
    (nvec [[(1 : ℤ)]] ≤ ([2, 3] : List ℤ).length ∧ 0 < nvec [[(1 : ℤ)]]) ∧
    (scaleArr [[(1 : ℤ)]] [2, 3]).getD 0 [] =
      smulV ([[(1 : ℤ)]].getD 0 []) (([2, 3] : List ℤ).getD 0 0) :=
  ⟨⟨by decide, by decide⟩,
    (C5_scaleArr_no_check [[(1 : ℤ)]] [2, 3] (by decide)).2 0 (by decide)⟩

/-- Claim C6: per-slice `axpy` requires `a.size() == N` and `y.nvec() == N`;
when both hold it returns normally with `self[i] += a[i] * y[i]` for each
`i < N` (the entrywise meaning of the slot update is the third conjunct), and
when either size disagrees the corresponding `assert` fails before any slot
is touched. -/
theorem C6_axpyArr (mv : List (Vec R)) (a : List R) (y : List (Vec R)) :
    (a.length = nvec mv → nvec y = nvec mv →
      ∃ r, axpyArr mv a y = Except.ok r ∧ nvec r = nvec mv ∧
        ∀ i, i < nvec mv →
          r.getD i [] = axpyV (mv.getD i []) (a.getD i 0) (y.getD i [])) ∧
    ((a.length ≠ nvec mv ∨ nvec y ≠ nvec mv) →
      ∃ e, axpyArr mv a y = Except.error e) ∧
    (∀ (w x : Vec R) (c : R), x.length = w.length → ∀ k, k < w.length →
      (axpyV w c x).getD k 0 = w.getD k 0 + c * x.getD k 0) := by
  simp only [nvec]
  refine ⟨?_, ?_, ?_⟩
  · intro h1 h2
    unfold axpyArr
    rw [if_pos h1, if_pos h2]
    refine ⟨_, rfl, by simp, ?_⟩
    intro i hi
    rw [getD_map_lt _ _ 0 _ (by simpa using hi), range_getD hi]
  · intro h
    unfold axpyArr
    rcases h with h | h
    · rw [if_neg h]
      exact ⟨_, rfl⟩
    · by_cases h1 : a.length = mv.length
      · rw [if_pos h1, if_neg h]
        exact ⟨_, rfl⟩
      · rw [if_neg h1]
        exact ⟨_, rfl⟩
  · intro w x c hx k hk
    exact axpyV_getD w c x hx hk

/-- Concrete instance of C6 over ℤ: the matching-sizes branch. -/
theorem C6_witness :
    (([(2 : ℤ)] : List ℤ).length = nvec [[(3 : ℤ)]] ∧
      nvec [[(5 : ℤ)]] = nvec [[(3 : ℤ)]]) ∧
    (∃ r, axpyArr [[(3 : ℤ)]] [(2 : ℤ)] [[(5 : ℤ)]] = Except.ok r ∧
      nvec r = nvec [[(3 : ℤ)]] ∧
      ∀ i, i < nvec [[(3 : ℤ)]] →
        r.getD i [] = axpyV ([[(3 : ℤ)]].getD i []) (([(2 : ℤ)] : List ℤ).getD i 0)
          ([[(5 : ℤ)]].getD i [])) :=
  ⟨⟨by decide, by decide⟩,
    (C6_axpyArr [[(3 : ℤ)]] [(2 : ℤ)] [[(5 : ℤ)]]).1 (by decide) (by decide)⟩

/-- Claim C7 counterexample: the claim counts `swap` among the operations that
leave `nvec()` unchanged. Swapping a one-vector MultiVector with an empty one
leaves the receiver with zero vectors. -/
theorem C7_cex :
    nvec ((swap [[(1 : ℤ)]] ([] : List (Vec ℤ))).1) ≠ nvec [[(1 : ℤ)]] := by
  decide

/-- Claim C7 amended: `dot`, `dot_self`, `reduce` and `norm_all` take the
MultiVector as `const` and the functional embedding leaves `mv` untouched;
the mutating operations `axpy` (either form), `scale` (either form) and
`zero` preserve `nvec()`; `swap`, however, exchanges the two counts: after
`A.swap(B)`, `A.nvec()` is old `B.nvec()` and vice versa (so `swap` is
N-invariant only when the two MultiVectors already agree in size). -/
theorem C7_nvec_invariance (mv y b : List (Vec R)) (a : R) (arr : List R)
    (k : ℕ) (v : Vec R) :
    nvec (axpyB mv a v) = nvec mv ∧
    nvec (scaleK mv k a) = nvec mv ∧
    nvec (scaleArr mv arr) = nvec mv ∧
    nvec (zero mv) = nvec mv ∧
    (∀ r, axpyArr mv arr y = Except.ok r → nvec r = nvec mv) ∧
    nvec (swap mv b).1 = nvec b ∧ nvec (swap mv b).2 = nvec mv := by
  simp only [nvec]
  refine ⟨by simp [axpyB], by simp [scaleK], by simp [scaleArr],
    by simp [zero], ?_, rfl, rfl⟩
  intro r hr
  unfold axpyArr at hr
  by_cases h1 : arr.length = mv.length
  · by_cases h2 : y.length = mv.length
    · rw [if_pos h1, if_pos h2] at hr
      obtain rfl : _ = r := Except.ok.inj hr
      simp
    · rw [if_pos h1, if_neg h2] at hr
      exact absurd hr (by simp)
  · rw [if_neg h1] at hr
    exact absurd hr (by simp)

/-- Concrete instance of the amended C7 over ℤ (the `axpyArr` conjunct has a
hypothesis; discharge it on matching sizes). -/
theorem C7_witness :
    (axpyArr [[(3 : ℤ)]] [(2 : ℤ)] [[(5 : ℤ)]] =
      Except.ok [axpyV [(3 : ℤ)] 2 [(5 : ℤ)]]) ∧
    nvec [axpyV [(3 : ℤ)] 2 [(5 : ℤ)]] = nvec [[(3 : ℤ)]] :=
  ⟨rfl,
    (C7_nvec_invariance [[(3 : ℤ)]] [[(5 : ℤ)]] [] 2 [(2 : ℤ)] 0 []).2.2.2.2.1
      [axpyV [(3 : ℤ)] 2 [(5 : ℤ)]] rfl⟩

/-- Claim C8: constructing a MultiVector from a template vector `v` and a
count `n` yields `nvec() = n`, every slot value-equal to the zeroed copy of
`v` (the additive identity in `v`'s layout: same length, all entries `0`), so
all `n` vectors share `v`'s dimension. -/
theorem C8_mkMultiVector (v : Vec R) (n : ℕ) :
    nvec (mkMultiVector v n) = n ∧
    (∀ i, i < n → (mkMultiVector v n).getD i [] = zeroV v) ∧
    (zeroV v).length = v.length ∧
    (∀ j, j < v.length → (zeroV v).getD j 0 = 0) := by
  refine ⟨by simp [nvec, mkMultiVector], ?_, by simp [zeroV], ?_⟩
  · intro i hi
    unfold mkMultiVector
    rw [List.getD_eq_getElem _ _ (by simpa using hi), List.getElem_replicate]
  · intro j hj
    unfold zeroV
    rw [getD_map_lt _ _ 0 _ hj]

/-- Concrete instance of C8 over ℤ. -/
theorem C8_witness :
    ((0 : ℕ) < 2 ∧ (1 : ℕ) < [(7 : ℤ), 8].length) ∧
    (mkMultiVector [(7 : ℤ), 8] 2).getD 0 [] = zeroV [(7 : ℤ), 8] ∧
    (zeroV [(7 : ℤ), 8]).getD 1 0 = 0 :=
  ⟨⟨by decide, by decide⟩,
    (C8_mkMultiVector [(7 : ℤ), 8] 2).2.1 0 (by decide),
    (C8_mkMultiVector [(7 : ℤ), 8] 2).2.2.2 1 (by decide)⟩

/-- Claim C9 counterexample: the claim says any per-element operation on a
zero-length (default-constructed) MultiVector fails fast with an
UninitializedVector error. The source has no such check: on an empty `mv`
each loop iterates zero times, the call returns normally, and every output is
untouched — here `dot` with a vector leaves the buffer `[5, 6]` unchanged,
`reduce` leaves `v = [7]` unchanged, `zero` is a no-op. -/
theorem C9_cex :
    dotGV inner ([] : List (Vec ℤ)) [1] [5, 6] = [5, 6] ∧
    reduce ([] : List (Vec ℤ)) [7] [] = [7] ∧
    zero ([] : List (Vec ℤ)) = [] :=
  ⟨rfl, rfl, rfl⟩

/-- Claim C9 amended: using a zero-length MultiVector in a per-element
operation is not detected: every such operation is a silent no-op that
returns normally, leaving its output buffer or target vector unchanged. -/
theorem C9_empty_noop (ip : Vec R → Vec R → R) {S : Type} (nrm : S → Vec R → R)
    (t : S) (v : Vec R) (m : List R) (alpha : List R) (a : R)
    (y : List (Vec R)) (arr : List R) :
    dotGV ip [] v m = m ∧
    dotMV ip false [] y m = m ∧
    dot_self ip [] m = m ∧
    reduce [] v alpha = v ∧
    axpyB [] a v = [] ∧
    scaleArr [] arr = [] ∧
    zero ([] : List (Vec R)) = [] ∧
    norm_all nrm t [] m = m :=
  ⟨rfl, rfl, rfl, rfl, rfl, rfl, rfl, rfl⟩

/-- Claim C10: each output-producing operation writes exactly the leading
block of its caller-supplied buffer — the first `N` positions (`dot` with a
vector, `norm_all`), the first `size1*size2` (general `dot`), or the first
`N*N` (`dot_self`) — with deterministic values fixed by the iteration order,
and leaves every buffer entry beyond that block unchanged; the buffer length
never changes. -/
theorem C10_output_frame (ip : Vec R → Vec R → R) {S : Type}
    (nrm : S → Vec R → R) (t : S) (mv other : List (Vec R)) (v : Vec R)
    (m : List R) :
    ((dotGV ip mv v m).length = m.length ∧
      (∀ k, nvec mv ≤ k → (dotGV ip mv v m).getD k 0 = m.getD k 0) ∧
      (nvec mv ≤ m.length → ∀ i, i < nvec mv →
        (dotGV ip mv v m).getD i 0 = ip (mv.getD i []) v)) ∧
    ((dotMVGeneral ip mv other m).length = m.length ∧
      (∀ k, nvec mv * nvec other ≤ k →
        (dotMVGeneral ip mv other m).getD k 0 = m.getD k 0) ∧
      (nvec mv * nvec other ≤ m.length → ∀ i j, i < nvec mv → j < nvec other →
        (dotMVGeneral ip mv other m).getD (i * nvec other + j) 0 =
          ip (mv.getD i []) (other.getD j []))) ∧
    ((dot_self ip mv m).length = m.length ∧
      (∀ k, nvec mv * nvec mv ≤ k →
        (dot_self ip mv m).getD k 0 = m.getD k 0) ∧
      (nvec mv * nvec mv ≤ m.length → ∀ a b, a < nvec mv → b < nvec mv →
        (dot_self ip mv m).getD (a + nvec mv * b) 0 =
          ip (mv.getD (max a b) []) (mv.getD (min a b) []))) ∧
    ((norm_all nrm t mv m).length = m.length ∧
      (∀ k, nvec mv ≤ k → (norm_all nrm t mv m).getD k 0 = m.getD k 0) ∧
      (nvec mv ≤ m.length → ∀ i, i < nvec mv →
        (norm_all nrm t mv m).getD i 0 = nrm t (mv.getD i []))) := by
  simp only [nvec]
  exact ⟨⟨dotGV_length ip mv v m,
      fun k hk => dotGV_getD_frame ip mv v m hk,
      fun hm i hi => dotGV_getD ip mv v m hm hi⟩,
    ⟨dotMVGeneral_length ip mv other m,
      fun k hk => dotMVGeneral_getD_frame ip mv other m hk,
      fun hm i j hi hj => dotMVGeneral_getD ip mv other m hm hi hj⟩,
    ⟨dot_self_length ip mv m,
      fun k hk => dot_self_getD_frame ip mv m hk,
      fun hm a b ha hb => dot_self_getD ip mv m hm ha hb⟩,
    ⟨norm_all_length nrm t mv m,
      fun k hk => norm_all_getD_frame nrm t mv m hk,
      fun hm i hi => norm_all_getD nrm t mv m hm hi⟩⟩

/-- Concrete instance of C10 over ℤ: frame and written-value conjuncts of
`dot` with a vector, on a buffer with one slack slot. -/
theorem C10_witness :
    (nvec [[(4 : ℤ)]] ≤ (1 : ℕ) ∧ nvec [[(4 : ℤ)]] ≤ ([0, 9] : List ℤ).length ∧
      0 < nvec [[(4 : ℤ)]]) ∧
    (dotGV inner [[(4 : ℤ)]] [2] [0, 9]).getD 1 0 = ([0, 9] : List ℤ).getD 1 0 ∧
    (dotGV inner [[(4 : ℤ)]] [2] [0, 9]).getD 0 0 = inner ([[(4 : ℤ)]].getD 0 []) [2] :=
  ⟨⟨by decide, by decide, by decide⟩,
    (C10_output_frame inner (fun _ _ => (0 : ℤ)) () [[(4 : ℤ)]] [] [2]
      [0, 9]).1.2.1 1 (by decide),
    (C10_output_frame inner (fun _ _ => (0 : ℤ)) () [[(4 : ℤ)]] [] [2]
      [0, 9]).1.2.2 (by decide) 0 (by decide)⟩

end MultiVec
